import Mathlib

/-!
# Verification of the document ingestion and hybrid retrieval pipeline

Shallow embedding of the backend pipeline of this repository
(`backend/nlp.py`, `backend/neo4j_store.py`, `backend/retrieval.py`,
`backend/ingest.py`, `backend/qa.py`).  Text is modelled as `List Char`,
floating-point scores as `ℚ`, and the graph store as explicit state
records; the external services (the spaCy tagger, the embedding model,
the Neo4j indexes, the OpenAI completion call) enter as explicit inputs.
-/

namespace Spec2Proof

/-! ## Normalizer: `clean_text` (backend/nlp.py, lines 18-24) -/

/-- Control characters removed by the first substitution of `clean_text`,
the character class `[\x00-\x1f\x7f-\x9f]`. -/
def isCtrlChar (c : Char) : Bool :=
  c.toNat ≤ 0x1f || (0x7f ≤ c.toNat && c.toNat ≤ 0x9f)

/-- Whitespace as matched by the `\s+` collapse step of `clean_text`.
After the control characters have been removed, the ASCII whitespace
characters other than the plain space (tab, LF, VT, FF, CR, codes 9-13)
are already gone, so only the space character and the non-control Unicode
space characters remain relevant for the collapse. -/
def isSpaceChar (c : Char) : Bool :=
  c = ' ' || c = ' ' || c = ' ' || c = ' ' || c = ' ' ||
  c = ' ' || c = ' ' || c = ' ' || c = ' ' || c = ' ' ||
  c = ' ' || c = ' ' || c = ' ' || c = ' ' || c = ' ' ||
  c = ' ' || c = ' ' || c = ' ' || c = '　'

/-- Collapse every run of whitespace characters to a single space,
modelling `re.sub(r'\s+', ' ', text)`. -/
def collapseWs : List Char → List Char
  | [] => []
  | [c] => [if isSpaceChar c then ' ' else c]
  | c₁ :: c₂ :: rest =>
    if isSpaceChar c₁ && isSpaceChar c₂ then collapseWs (c₂ :: rest)
    else (if isSpaceChar c₁ then ' ' else c₁) :: collapseWs (c₂ :: rest)

/-- Strip leading and trailing whitespace, modelling Python `str.strip()`. -/
def stripChars (l : List Char) : List Char :=
  ((l.dropWhile isSpaceChar).reverse.dropWhile isSpaceChar).reverse

/-- `clean_text`: remove control characters, collapse whitespace runs to a
single space, strip. -/
def clean_text (text : List Char) : List Char :=
  stripChars (collapseWs (text.filter (fun c => !isCtrlChar c)))

/-! ## Chunker: `chunk_text` (backend/nlp.py, lines 26-50) -/

/-- One chunk record as produced by `chunk_text`.  The Python dict field
`end` is called `stop` here because `end` is reserved in Lean. -/
structure Chunk where
  id : Nat
  text : List Char
  start : Nat
  stop : Nat
  deriving Repr, DecidableEq

/-- The `while start < len(text)` loop of `chunk_text`.  The loop is
embedded with explicit fuel; each iteration appends the chunk
`text[start:end]` with `end = min(start + chunk_size, len(text))`, stops
when `end >= len(text)`, and otherwise continues from
`start = end - overlap` with the next chunk id.  `chunkCore` below
supplies enough fuel for every terminating run of the Python loop. -/
def chunkLoop (text : List Char) (chunk_size overlap : Nat) :
    Nat → Nat → Nat → List Chunk
  | 0, _, _ => []
  | fuel + 1, start, chunk_id =>
    if start < text.length then
      let e := min (start + chunk_size) text.length
      (⟨chunk_id, (text.drop start).take (e - start), start, e⟩ : Chunk) ::
        (if text.length ≤ e then []
         else chunkLoop text chunk_size overlap fuel (e - overlap) (chunk_id + 1))
    else []

/-- The loop of `chunk_text` run from `start = 0`, `chunk_id = 0` on
already-normalized text.  Fuel `text.length + 1` suffices because, when
`overlap < chunk_size`, `start` strictly increases on every iteration. -/
def chunkCore (text : List Char) (chunk_size overlap : Nat) : List Chunk :=
  chunkLoop text chunk_size overlap (text.length + 1) 0 0

/-- `chunk_text`: normalize with `clean_text`, then run the chunking loop.
Default parameters are `CHUNK_SIZE = 700`, `CHUNK_OVERLAP = 100`
(backend/config.py). -/
def chunk_text (text : List Char) (chunk_size : Nat := 700) (overlap : Nat := 100) :
    List Chunk :=
  chunkCore (clean_text text) chunk_size overlap

/-- Invariant bundle describing a list of chunks produced by the loop when
started at offset `start` with id `chunk_id`. -/
def ChunkInv (text : List Char) (W V start chunk_id : Nat) (cs : List Chunk) : Prop :=
  cs.head? = some ⟨chunk_id, (text.drop start).take (min (start + W) text.length - start),
      start, min (start + W) text.length⟩ ∧
  (∀ c ∈ cs, c.stop = min (c.start + W) text.length ∧
      c.text = (text.drop c.start).take (c.stop - c.start) ∧ c.start < text.length) ∧
  cs.map Chunk.id = List.range' chunk_id cs.length ∧
  List.Chain' (fun a b => b.start = a.start + W - V ∧ a.stop = a.start + W) cs ∧
  (∀ c, cs.getLast? = some c → c.stop = text.length) ∧
  (∀ p, start ≤ p → p < text.length → ∃ c ∈ cs, c.start ≤ p ∧ p < c.stop)

theorem chunkLoop_inv (text : List Char) (W V : Nat) (hWV : V < W) :
    ∀ fuel start chunk_id, text.length - start < fuel → start < text.length →
      ChunkInv text W V start chunk_id (chunkLoop text W V fuel start chunk_id) := by
  intro fuel
  induction fuel with
  | zero => intro start chunk_id hfuel hs; omega
  | succ n ih =>
    intro start chunk_id hfuel hs
    simp only [chunkLoop, if_pos hs]
    by_cases hend : text.length ≤ min (start + W) text.length
    · -- final iteration: `end >= len(text)`, the loop breaks after this chunk
      have he : min (start + W) text.length = text.length :=
        le_antisymm (min_le_right _ _) hend
      simp only [if_pos hend]
      refine ⟨rfl, ?_, ?_, ?_, ?_, ?_⟩
      · intro c hc
        simp only [List.mem_singleton] at hc
        subst hc
        exact ⟨rfl, rfl, hs⟩
      · simp
      · simp
      · intro c hc
        simp only [List.getLast?_singleton, Option.some_inj] at hc
        subst hc
        exact he
      · intro p hp hplen
        exact ⟨_, List.mem_singleton_self _, hp, by simpa [he] using hplen⟩
    · -- continuing iteration: `end < len(text)`, recurse from `end - overlap`
      have hmin : min (start + W) text.length = start + W := by
        rcases Nat.le_total (start + W) text.length with h | h
        · exact min_eq_left h
        · omega
      have hstep : start < start + W - V := by omega
      have hs' : start + W - V < text.length := by omega
      have ih' := ih (min (start + W) text.length - V) (chunk_id + 1)
        (by omega) (by omega)
      rw [hmin] at ih' ⊢
      obtain ⟨hhead, hmem, hids, hchain, hlast, hcover⟩ := ih'
      simp only [if_neg (by omega : ¬ text.length ≤ start + W)]
      set rest := chunkLoop text W V n (start + W - V) (chunk_id + 1) with hrest
      have hrest_ne : rest ≠ [] := by
        intro hnil
        rw [hnil] at hhead
        simp at hhead
      refine ⟨?_, ?_, ?_, ?_, ?_, ?_⟩
      · simp [hmin]
      · intro c hc
        rcases List.mem_cons.mp hc with hc | hc
        · subst hc
          exact ⟨by simp [hmin], rfl, hs⟩
        · exact hmem c hc
      · simpa [List.range'_succ] using hids
      · rw [List.chain'_cons']
        refine ⟨?_, hchain⟩
        intro b hb
        rw [hhead] at hb
        simp only [Option.mem_def, Option.some_inj] at hb
        subst hb
        exact ⟨rfl, by simp [hmin]⟩
      · intro c hc
        rcases List.exists_cons_of_ne_nil hrest_ne with ⟨r, rs, hr⟩
        rw [hr, List.getLast?_cons_cons] at hc
        exact hlast c (by rw [hr]; exact hc)
      · intro p hp hplen
        by_cases hpe : p < start + W
        · exact ⟨_, List.mem_cons_self _ _, hp, by simpa [hmin] using hpe⟩
        · obtain ⟨c, hc, hc1, hc2⟩ := hcover p (by omega) hplen
          exact ⟨c, List.mem_cons_of_mem _ hc, hc1, hc2⟩

/-- **C2.** For every non-empty normalized text of length `L`, chunking
with window `W` and overlap `V < W` produces an ordered, 0-indexed
sequence of chunks: the ids are `0, 1, 2, ...` in output order, chunk `i`
spans `[start_i, min (start_i + W) L)`, consecutive starts satisfy
`start_{i+1} = start_i + W - V` so that `end_i - start_{i+1} = V` for
every chunk except the last, and the spans' union covers `[0, L)`. -/
theorem chunkCore_covers_and_overlaps (text : List Char) (W V : Nat)
    (hne : text ≠ []) (hWV : V < W) :
    (chunkCore text W V).map Chunk.id = List.range (chunkCore text W V).length ∧
    (∀ c ∈ chunkCore text W V, c.stop = min (c.start + W) text.length) ∧
    (∀ i (hi : i + 1 < (chunkCore text W V).length),
      ((chunkCore text W V).get ⟨i + 1, hi⟩).start
          = ((chunkCore text W V).get ⟨i, by omega⟩).start + W - V ∧
      ((chunkCore text W V).get ⟨i, by omega⟩).stop
          - ((chunkCore text W V).get ⟨i + 1, hi⟩).start = V) ∧
    (∀ p < text.length, ∃ c ∈ chunkCore text W V, c.start ≤ p ∧ p < c.stop) := by
  have hlen : 0 < text.length := List.length_pos.mpr hne
  have hinv : ChunkInv text W V 0 0 (chunkCore text W V) :=
    chunkLoop_inv text W V hWV (text.length + 1) 0 0 (by omega) hlen
  obtain ⟨hhead, hmem, hids, hchain, hlast, hcover⟩ := hinv
  refine ⟨by simpa [List.range_eq_range'] using hids, fun c hc => (hmem c hc).1, ?_, ?_⟩
  · intro i hi
    have hget := List.chain'_iff_get.mp hchain i (by omega)
    refine ⟨hget.1, ?_⟩
    have h1 := hget.1
    have h2 := hget.2
    omega
  · intro p hp
    exact hcover p (Nat.zero_le _) hp

/-- Witness for C2 at the concrete normalized text `"abcdef"`, window 3,
overlap 1. -/
theorem chunkCore_covers_and_overlaps_witness :
    (("abcdef".data : List Char) ≠ [] ∧ 1 < 3) ∧
    ((chunkCore "abcdef".data 3 1).map Chunk.id
        = List.range (chunkCore "abcdef".data 3 1).length ∧
    (∀ c ∈ chunkCore "abcdef".data 3 1,
        c.stop = min (c.start + 3) ("abcdef".data : List Char).length) ∧
    (∀ i (hi : i + 1 < (chunkCore "abcdef".data 3 1).length),
      ((chunkCore "abcdef".data 3 1).get ⟨i + 1, hi⟩).start
          = ((chunkCore "abcdef".data 3 1).get ⟨i, by omega⟩).start + 3 - 1 ∧
      ((chunkCore "abcdef".data 3 1).get ⟨i, by omega⟩).stop
          - ((chunkCore "abcdef".data 3 1).get ⟨i + 1, hi⟩).start = 1) ∧
    (∀ p < ("abcdef".data : List Char).length,
        ∃ c ∈ chunkCore "abcdef".data 3 1, c.start ≤ p ∧ p < c.stop)) :=
  ⟨⟨by decide, by decide⟩,
    chunkCore_covers_and_overlaps "abcdef".data 3 1 (by decide) (by decide)⟩

/-- **C9 counterexample.** Chunking the empty text yields zero chunks, not
the single empty-span chunk the claim asserts: the `while start < len(text)`
loop body never runs for `len(text) = 0`. -/
theorem chunk_text_empty_counterexample :
    chunk_text [] 700 100 = [] ∧ (chunk_text [] 700 100).length ≠ 1 :=
  ⟨rfl, by decide⟩

/-- **C9 (amended).** Chunking an empty text yields zero chunks (the empty
list) for every window size and overlap, rather than raising or yielding a
single empty-span chunk. -/
theorem chunk_text_empty_amended (chunk_size overlap : Nat) :
    chunk_text [] chunk_size overlap = [] := rfl

/-- **C10.** For every input text and parameters `V < W`, every chunk
produced by `chunk_text` stores exactly the slice of the cleaned text
between its offsets, spans at most `W` characters, the ids are the
consecutive integers `0, 1, 2, ...` in output order, and the start offsets
are strictly increasing across the sequence. -/
theorem chunk_text_invariants (text : List Char) (W V : Nat) (hWV : V < W) :
    (∀ c ∈ chunk_text text W V,
        c.text = ((clean_text text).drop c.start).take (c.stop - c.start) ∧
        c.stop - c.start ≤ W) ∧
    (chunk_text text W V).map Chunk.id = List.range (chunk_text text W V).length ∧
    List.Pairwise (fun a b => a.start < b.start) (chunk_text text W V) := by
  show (∀ c ∈ chunkCore (clean_text text) W V, _) ∧ _ ∧ _
  by_cases hnil : clean_text text = []
  · rw [chunk_text, hnil]
    have hempty : chunkCore [] W V = [] := rfl
    rw [hempty]
    simp
  · have hinv : ChunkInv (clean_text text) W V 0 0 (chunkCore (clean_text text) W V) :=
      chunkLoop_inv (clean_text text) W V hWV ((clean_text text).length + 1) 0 0
        (by omega) (List.length_pos.mpr hnil)
    obtain ⟨hhead, hmem, hids, hchain, hlast, hcover⟩ := hinv
    refine ⟨?_, ?_, ?_⟩
    · intro c hc
      obtain ⟨h1, h2, h3⟩ := hmem c hc
      refine ⟨h2, ?_⟩
      omega
    · simpa [chunk_text, List.range_eq_range'] using hids
    · have hlt : List.Chain' (fun a b : Chunk => a.start < b.start)
          (chunkCore (clean_text text) W V) := by
        refine List.Chain'.imp ?_ hchain
        intro a b hab
        omega
      haveI : IsTrans Chunk (fun a b : Chunk => a.start < b.start) :=
        ⟨fun _ _ _ h1 h2 => Nat.lt_trans h1 h2⟩
      exact List.chain'_iff_pairwise.mp hlt

/-- Witness for C10 at the concrete text `"hello world, hi"` with window 4,
overlap 2. -/
theorem chunk_text_invariants_witness :
    (2 < 4) ∧
    ((∀ c ∈ chunk_text "hello world, hi".data 4 2,
        c.text = ((clean_text "hello world, hi".data).drop c.start).take (c.stop - c.start) ∧
        c.stop - c.start ≤ 4) ∧
    (chunk_text "hello world, hi".data 4 2).map Chunk.id
        = List.range (chunk_text "hello world, hi".data 4 2).length ∧
    List.Pairwise (fun a b => a.start < b.start) (chunk_text "hello world, hi".data 4 2)) :=
  ⟨by decide, chunk_text_invariants "hello world, hi".data 4 2 (by decide)⟩

/-! ## Co-occurrence: `compute_cooccurrence_pairs` (backend/nlp.py, lines 104-118) -/

/-- `compute_cooccurrence_pairs`: for every position `i` and every
`j ∈ range(i + 1, min(i + window_size, len(concepts)))`, emit
`(concepts[i], concepts[j], 1.0 / abs(j - i))` whenever the two labels
differ.  Python's out-of-range indexing cannot occur (both indices stay
below the length), so `getD` with a default is exact. -/
def compute_cooccurrence_pairs (concepts : List String) (window_size : Nat := 5) :
    List (String × String × ℚ) :=
  (List.range concepts.length).flatMap fun i =>
    (List.range' (i + 1) (min (i + window_size) concepts.length - (i + 1))).filterMap fun j =>
      let concept1 := concepts.getD i ""
      let concept2 := concepts.getD j ""
      if concept1 ≠ concept2 then some (concept1, concept2, 1 / |(j : ℚ) - (i : ℚ)|)
      else none

theorem flatMap_congr_mem {α β : Type} {l : List α} {f g : α → List β}
    (h : ∀ a ∈ l, f a = g a) : l.flatMap f = l.flatMap g := by
  induction l with
  | nil => rfl
  | cons a l ih =>
    simp only [List.flatMap_cons, h a (List.mem_cons_self a l)]
    rw [ih (fun x hx => h x (List.mem_cons_of_mem a hx))]

theorem filterMap_eq_map_mem {α β : Type} {l : List α} {f : α → Option β} {g : α → β}
    (h : ∀ a ∈ l, f a = some (g a)) : l.filterMap f = l.map g := by
  induction l with
  | nil => rfl
  | cons a l ih =>
    simp only [List.filterMap_cons, h a (List.mem_cons_self a l), List.map_cons]
    rw [ih (fun x hx => h x (List.mem_cons_of_mem a hx))]

/-- For a label list without duplicates the `concept1 != concept2` guard
never fires, so the emitted list is the plain enumeration of ordered index
pairs inside the window. -/
theorem compute_cooccurrence_pairs_eq_enum (concepts : List String) (N : Nat)
    (hnd : concepts.Nodup) :
    compute_cooccurrence_pairs concepts N =
      (List.range concepts.length).flatMap fun i =>
        (List.range' (i + 1) (min (i + N) concepts.length - (i + 1))).map fun j =>
          (concepts.getD i "", concepts.getD j "", 1 / |(j : ℚ) - (i : ℚ)|) := by
  unfold compute_cooccurrence_pairs
  refine flatMap_congr_mem ?_
  intro i hi
  rw [List.mem_range] at hi
  refine filterMap_eq_map_mem ?_
  intro j hj
  rw [List.mem_range'_1] at hj
  have hmin1 : min (i + N) concepts.length ≤ concepts.length := min_le_right _ _
  have hij : i < j := by omega
  have hjlen : j < concepts.length := by omega
  have hne : concepts.getD i "" ≠ concepts.getD j "" := by
    rw [List.getD_eq_get _ _ hi, List.getD_eq_get _ _ hjlen]
    intro hcontra
    have := (List.Nodup.get_inj_iff hnd).mp hcontra
    simp only [Fin.mk.injEq] at this
    omega
  show (if concepts.getD i "" ≠ concepts.getD j "" then
      some (concepts.getD i "", concepts.getD j "", 1 / |(j : ℚ) - (i : ℚ)|)
    else none) = _
  rw [if_pos hne]

/-- **C3.** For a deduplicated per-chunk ordered concept-label list and
window size `N`, the co-occurrence computation emits, for every ordered
pair of distinct labels `(c_i, c_j)` with `i < j < i + N`, exactly one
increment of weight `1 / (j - i)` (the emitted list has no duplicates,
contains every such pair, and contains nothing else), and never emits a
self-pair; in particular for `["A", "B", "C"]` and `N ≥ 3` the increments
are exactly `{A,B}: 1`, `{A,C}: 1/2`, `{B,C}: 1` with no `{A,A}` entry. -/
theorem cooccurrence_pairs_spec (concepts : List String) (N : Nat)
    (hnd : concepts.Nodup) :
    (compute_cooccurrence_pairs concepts N).Nodup ∧
    (∀ i j (hi : i < concepts.length) (hj : j < concepts.length), i < j → j < i + N →
       (concepts.get ⟨i, hi⟩, concepts.get ⟨j, hj⟩, 1 / |(j : ℚ) - (i : ℚ)|)
         ∈ compute_cooccurrence_pairs concepts N) ∧
    (∀ p ∈ compute_cooccurrence_pairs concepts N,
       ∃ i j, ∃ (hi : i < concepts.length) (hj : j < concepts.length),
         i < j ∧ j < i + N ∧
         p = (concepts.get ⟨i, hi⟩, concepts.get ⟨j, hj⟩, 1 / |(j : ℚ) - (i : ℚ)|)) ∧
    (∀ p ∈ compute_cooccurrence_pairs concepts N, p.1 ≠ p.2.1) ∧
    (3 ≤ N → compute_cooccurrence_pairs ["A", "B", "C"] N
        = [("A", "B", 1), ("A", "C", 1/2), ("B", "C", 1)]) := by
  rw [compute_cooccurrence_pairs_eq_enum concepts N hnd]
  refine ⟨?_, ?_, ?_, ?_, ?_⟩
  · -- no duplicate triples
    rw [List.nodup_flatMap]
    constructor
    · intro i hi
      rw [List.mem_range] at hi
      refine List.Nodup.map_on ?_ (List.nodup_range' _ _)
      intro x hx y hy hxy
      rw [List.mem_range'_1] at hx hy
      have hminl : min (i + N) concepts.length ≤ concepts.length := min_le_right _ _
      have hxlen : x < concepts.length := by omega
      have hylen : y < concepts.length := by omega
      have := congrArg (fun t => t.2.1) hxy
      simp only at this
      rw [List.getD_eq_get _ _ hxlen, List.getD_eq_get _ _ hylen] at this
      have := (List.Nodup.get_inj_iff hnd).mp this
      simp only [Fin.mk.injEq] at this
      exact this
    · refine List.Pairwise.imp ?_ (List.pairwise_lt_range _)
      intro i i' hii' p hp hp'
      rw [List.mem_map] at hp hp'
      obtain ⟨x, hx, hpx⟩ := hp
      obtain ⟨y, hy, hpy⟩ := hp'
      rw [List.mem_range'_1] at hx hy
      have hminl : min (i + N) concepts.length ≤ concepts.length := min_le_right _ _
      have hminl' : min (i' + N) concepts.length ≤ concepts.length := min_le_right _ _
      have hilen : i < concepts.length := by omega
      have hilen' : i' < concepts.length := by omega
      have hfst : concepts.getD i "" = concepts.getD i' "" := by
        rw [← hpy] at hpx
        exact congrArg (fun t => t.1) hpx
      rw [List.getD_eq_get _ _ hilen, List.getD_eq_get _ _ hilen'] at hfst
      have := (List.Nodup.get_inj_iff hnd).mp hfst
      simp only [Fin.mk.injEq] at this
      omega
  · -- completeness: every in-window ordered pair is emitted
    intro i j hi hj hij hwin
    rw [List.mem_flatMap]
    refine ⟨i, List.mem_range.mpr hi, ?_⟩
    rw [List.mem_map]
    refine ⟨j, ?_, ?_⟩
    · rw [List.mem_range'_1]
      omega
    · rw [List.getD_eq_get _ _ hi, List.getD_eq_get _ _ hj]
  · -- soundness: everything emitted is an in-window ordered pair
    intro p hp
    rw [List.mem_flatMap] at hp
    obtain ⟨i, hi, hp⟩ := hp
    rw [List.mem_range] at hi
    rw [List.mem_map] at hp
    obtain ⟨j, hj, hpj⟩ := hp
    rw [List.mem_range'_1] at hj
    have hminl : min (i + N) concepts.length ≤ min (i + N) (concepts.length) := le_refl _
    have h1 : min (i + N) concepts.length ≤ concepts.length := min_le_right _ _
    have h2 : min (i + N) concepts.length ≤ i + N := min_le_left _ _
    have hjlen : j < concepts.length := by omega
    refine ⟨i, j, hi, hjlen, by omega, by omega, ?_⟩
    rw [← hpj, List.getD_eq_get _ _ hi, List.getD_eq_get _ _ hjlen]
  · -- never a self-pair
    intro p hp
    rw [List.mem_flatMap] at hp
    obtain ⟨i, hi, hp⟩ := hp
    rw [List.mem_range] at hi
    rw [List.mem_map] at hp
    obtain ⟨j, hj, hpj⟩ := hp
    rw [List.mem_range'_1] at hj
    have h1 : min (i + N) concepts.length ≤ concepts.length := min_le_right _ _
    have hjlen : j < concepts.length := by omega
    rw [← hpj]
    simp only
    rw [List.getD_eq_get _ _ hi, List.getD_eq_get _ _ hjlen]
    intro hcontra
    have := (List.Nodup.get_inj_iff hnd).mp hcontra
    simp only [Fin.mk.injEq] at this
    omega
  · -- the concrete three-label instance
    intro hN
    have hred : compute_cooccurrence_pairs ["A", "B", "C"] N
        = compute_cooccurrence_pairs ["A", "B", "C"] 3 := by
      unfold compute_cooccurrence_pairs
      refine flatMap_congr_mem ?_
      intro i hi
      rw [List.mem_range] at hi
      have : min (i + N) (["A", "B", "C"] : List String).length
          = min (i + 3) (["A", "B", "C"] : List String).length := by
        simp only [List.length_cons, List.length_nil]
        omega
      rw [this]
    rw [hred]
    norm_num [compute_cooccurrence_pairs, List.range_succ, List.range', List.filterMap_cons]
    norm_num [show ("A" : String) ≠ "B" from by decide, show ("A" : String) ≠ "C" from by decide,
      show ("B" : String) ≠ "C" from by decide]

/-- Witness for C3 at the concrete deduplicated list `["A", "B", "C"]` with
the default window size 5. -/
theorem cooccurrence_pairs_spec_witness :
    (["A", "B", "C"] : List String).Nodup ∧
    ((compute_cooccurrence_pairs ["A", "B", "C"] 5).Nodup ∧
    (∀ i j (hi : i < (["A", "B", "C"] : List String).length)
        (hj : j < (["A", "B", "C"] : List String).length), i < j → j < i + 5 →
       ((["A", "B", "C"] : List String).get ⟨i, hi⟩,
        (["A", "B", "C"] : List String).get ⟨j, hj⟩, 1 / |(j : ℚ) - (i : ℚ)|)
         ∈ compute_cooccurrence_pairs ["A", "B", "C"] 5) ∧
    (∀ p ∈ compute_cooccurrence_pairs ["A", "B", "C"] 5,
       ∃ i j, ∃ (hi : i < (["A", "B", "C"] : List String).length)
          (hj : j < (["A", "B", "C"] : List String).length),
         i < j ∧ j < i + 5 ∧
         p = ((["A", "B", "C"] : List String).get ⟨i, hi⟩,
              (["A", "B", "C"] : List String).get ⟨j, hj⟩, 1 / |(j : ℚ) - (i : ℚ)|)) ∧
    (∀ p ∈ compute_cooccurrence_pairs ["A", "B", "C"] 5, p.1 ≠ p.2.1) ∧
    (3 ≤ 5 → compute_cooccurrence_pairs ["A", "B", "C"] 5
        = [("A", "B", 1), ("A", "C", 1/2), ("B", "C", 1)])) :=
  ⟨by decide, cooccurrence_pairs_spec ["A", "B", "C"] 5 (by decide)⟩

/-! ## Persisted co-occurrence weights: `bump_cooccurrence`
(backend/neo4j_store.py, lines 113-124) and the per-ingestion write loop
of `_process_content` (backend/ingest.py, lines 214-221) -/

/-- The sequence of `bump_cooccurrence` calls issued by
`IngestionService._process_content` for one document: one write per pair
emitted by `compute_cooccurrence_pairs`, chunk by chunk, skipping chunks
with at most one concept. -/
def cooccurrence_writes (chunk_concepts : List (List String)) (window_size : Nat := 5) :
    List (String × String × ℚ) :=
  chunk_concepts.flatMap fun concepts_in_chunk =>
    if 1 < concepts_in_chunk.length then
      compute_cooccurrence_pairs concepts_in_chunk window_size
    else []

/-- `bump_cooccurrence` on the store, modelled as a total weight map on
unordered label pairs (the Cypher `MERGE (k1)-[r:CO_OCCURS]-(k2)` matches
the edge in either direction); the write adds `$weight` to
`COALESCE(r.weight, 0)` and the `WHERE k1 <> k2` guard drops self-pairs. -/
def bump_cooccurrence (weights : Sym2 String → ℚ) (label1 label2 : String) (weight : ℚ) :
    Sym2 String → ℚ :=
  if label1 = label2 then weights
  else fun e => if e = s(label1, label2) then weights e + weight else weights e

/-- Apply a sequence of `bump_cooccurrence` writes in order. -/
def applyWrites (weights : Sym2 String → ℚ) (ws : List (String × String × ℚ)) :
    Sym2 String → ℚ :=
  ws.foldl (fun w t => bump_cooccurrence w t.1 t.2.1 t.2.2) weights

/-- Total additive contribution of a write sequence to one edge. -/
def writeSum (ws : List (String × String × ℚ)) (e : Sym2 String) : ℚ :=
  (ws.map fun t => if t.1 ≠ t.2.1 ∧ e = s(t.1, t.2.1) then t.2.2 else 0).sum

theorem applyWrites_eq_add (ws : List (String × String × ℚ)) :
    ∀ (weights : Sym2 String → ℚ) (e : Sym2 String),
      applyWrites weights ws e = weights e + writeSum ws e := by
  induction ws with
  | nil => intro weights e; simp [applyWrites, writeSum]
  | cons t rest ih =>
    intro weights e
    show applyWrites (bump_cooccurrence weights t.1 t.2.1 t.2.2) rest e = _
    rw [ih]
    have hsum : writeSum (t :: rest) e
        = (if t.1 ≠ t.2.1 ∧ e = s(t.1, t.2.1) then t.2.2 else 0) + writeSum rest e := by
      simp [writeSum]
    rw [hsum]
    unfold bump_cooccurrence
    by_cases h1 : t.1 = t.2.1
    · simp [h1]
    · by_cases h2 : e = s(t.1, t.2.1) <;> simp [h1, h2] <;> ring

/-- **C4 counterexample.** A document with two chunks whose concept lists
are both `["A", "B"]` issues two separate `bump_cooccurrence` writes for
the single unordered pair `{A, B}` during one ingestion — the increments
are not summed locally into one atomic increment per pair. -/
theorem cooccurrence_writes_counterexample :
    cooccurrence_writes [["A", "B"], ["A", "B"]] 5 = [("A", "B", 1), ("A", "B", 1)] ∧
    ¬ (cooccurrence_writes [["A", "B"], ["A", "B"]] 5).length ≤ 1 := by
  have h : cooccurrence_writes [["A", "B"], ["A", "B"]] 5
      = [("A", "B", 1), ("A", "B", 1)] := by
    norm_num [cooccurrence_writes, compute_cooccurrence_pairs, List.range_succ,
      List.range', List.filterMap_cons]
    norm_num [show ("A" : String) ≠ "B" from by decide]
  exact ⟨h, by rw [h]; decide⟩

/-- **C4 (amended).** During one document ingestion the co-occurrence
increments are applied as one `bump_cooccurrence` write per emitted pair
occurrence (not summed into a single increment per pair); since every
write adds to the persisted weight, the final edge weights are still
independent of ingestion order: ingesting document A then document B
yields the same weights as B then A. -/
theorem cooccurrence_writes_commute (weights : Sym2 String → ℚ)
    (ccA ccB : List (List String)) (NA NB : Nat) :
    applyWrites (applyWrites weights (cooccurrence_writes ccA NA))
        (cooccurrence_writes ccB NB)
      = applyWrites (applyWrites weights (cooccurrence_writes ccB NB))
        (cooccurrence_writes ccA NA) := by
  funext e
  rw [applyWrites_eq_add, applyWrites_eq_add, applyWrites_eq_add, applyWrites_eq_add]
  ring

/-! ## Concept frequency: `upsert_concept` (backend/neo4j_store.py,
lines 88-100) and the aggregation loop of `_process_content`
(backend/ingest.py, lines 180-206) -/

/-- One step of the `unique_concepts` dictionary build in
`_process_content`: a label already present bumps its count, a new label
is appended with count 1 (Python dicts preserve insertion order). -/
def add_concept (acc : List (String × Nat)) (label : String) : List (String × Nat) :=
  if acc.any (fun p => p.1 = label) then
    acc.map fun p => if p.1 = label then (p.1, p.2 + 1) else p
  else acc ++ [(label, 1)]

/-- The `unique_concepts` table: per-label occurrence counts over the
concatenation of the per-chunk (already deduplicated) label lists. -/
def unique_concepts (all_concepts : List String) : List (String × Nat) :=
  all_concepts.foldl add_concept []

/-- `upsert_concept` merges on the label and adds `$freq` to the stored
counter (`k.freq = COALESCE(k.freq, 0) + $freq`); the store is modelled
as a total map defaulting to 0. -/
def upsert_concept_freq (freqs : String → Nat) (label : String) (freq : Nat) :
    String → Nat :=
  fun l => if l = label then freqs l + freq else freqs l

/-- The `upsert_concept` loop of `_process_content`, applied to the
persisted frequency map. -/
def apply_upserts (freqs : String → Nat) (ups : List (String × Nat)) : String → Nat :=
  ups.foldl (fun f p => upsert_concept_freq f p.1 p.2) freqs

/-- Frequency effect of ingesting one document whose chunks mention the
given per-chunk label lists. -/
def ingest_freqs (freqs : String → Nat) (chunk_concepts : List (List String)) :
    String → Nat :=
  apply_upserts freqs (unique_concepts (chunk_concepts.flatMap id))

/-- Total frequency recorded for one label in an upsert batch. -/
def sumFreq (ups : List (String × Nat)) (l : String) : Nat :=
  ((ups.filter fun p => p.1 = l).map Prod.snd).sum

theorem apply_upserts_eq_add (ups : List (String × Nat)) :
    ∀ (freqs : String → Nat) (l : String),
      apply_upserts freqs ups l = freqs l + sumFreq ups l := by
  induction ups with
  | nil => intro freqs l; simp [apply_upserts, sumFreq]
  | cons p rest ih =>
    intro freqs l
    show apply_upserts (upsert_concept_freq freqs p.1 p.2) rest l = _
    rw [ih]
    unfold upsert_concept_freq sumFreq
    by_cases h : p.1 = l
    · simp [h, List.filter_cons]
      omega
    · have h' : ¬ l = p.1 := fun hc => h hc.symm
      simp [h, h', List.filter_cons]

theorem sumFreq_cons (p : String × Nat) (rest : List (String × Nat)) (l : String) :
    sumFreq (p :: rest) l = (if p.1 = l then p.2 else 0) + sumFreq rest l := by
  unfold sumFreq
  rw [List.filter_cons]
  by_cases h : p.1 = l <;> simp [h]

theorem sumFreq_bump (acc : List (String × Nat)) (label l : String) :
    sumFreq (acc.map fun p => if p.1 = label then (p.1, p.2 + 1) else p) l
      = sumFreq acc l + if label = l then acc.countP (fun p => p.1 = label) else 0 := by
  induction acc with
  | nil => simp [sumFreq]
  | cons p rest ih =>
    rw [List.map_cons, sumFreq_cons, sumFreq_cons, ih]
    have hfst : ((if p.1 = label then (p.1, p.2 + 1) else p) : String × Nat).1 = p.1 := by
      split <;> rfl
    have hsnd : ((if p.1 = label then (p.1, p.2 + 1) else p) : String × Nat).2
        = if p.1 = label then p.2 + 1 else p.2 := by
      split <;> rfl
    rw [hfst, hsnd, List.countP_cons]
    by_cases h1 : p.1 = l <;> by_cases h2 : p.1 = label <;> by_cases h3 : label = l
    · simp [h1, h2, h3]
      try omega
    · exact absurd (h2.symm.trans h1) h3
    · exact absurd (h1.trans h3.symm) h2
    · simp [h1, h2, h3]
      exact fun hc => h2 (h1.trans hc)
    · exact absurd (h2.trans h3) h1
    · simp [h1, h2, h3]
      try omega
    · simp [h1, h2, h3]
      try omega
    · simp [h1, h2, h3]
      try omega

theorem countP_key_eq_one (acc : List (String × Nat)) (label : String)
    (hnd : (acc.map Prod.fst).Nodup) (hmem : acc.any (fun p => p.1 = label) = true) :
    acc.countP (fun p => p.1 = label) = 1 := by
  induction acc with
  | nil => simp at hmem
  | cons p rest ih =>
    simp only [List.map_cons, List.nodup_cons] at hnd
    by_cases hp : p.1 = label
    · have hrest : rest.countP (fun p => p.1 = label) = 0 := by
        rw [List.countP_eq_zero]
        intro q hq
        simp only [decide_eq_true_eq]
        intro hc
        exact hnd.1 (by
          rw [hp, ← hc]
          exact List.mem_map_of_mem Prod.fst hq)
      simp [List.countP_cons, hp, hrest]
    · have hmem' : rest.any (fun p => p.1 = label) = true := by
        simp only [List.any_cons, Bool.or_eq_true, decide_eq_true_eq] at hmem
        rcases hmem with h | h
        · exact absurd h hp
        · simpa using h
      simp [List.countP_cons, hp, ih hnd.2 hmem']

theorem unique_concepts_aux (all : List String) :
    ∀ acc : List (String × Nat), (acc.map Prod.fst).Nodup →
      ((all.foldl add_concept acc).map Prod.fst).Nodup ∧
      (∀ l, sumFreq (all.foldl add_concept acc) l = sumFreq acc l + all.count l) := by
  induction all with
  | nil => intro acc hnd; simp [hnd, sumFreq]
  | cons label rest ih =>
    intro acc hnd
    rw [List.foldl_cons]
    by_cases hmem : acc.any (fun p => p.1 = label) = true
    · have hkeys : ((acc.map fun p => if p.1 = label then (p.1, p.2 + 1) else p).map
          Prod.fst) = acc.map Prod.fst := by
        rw [List.map_map]
        refine List.map_congr_left ?_
        intro p _
        by_cases hp : p.1 = label <;> simp [hp]
      have hstep : add_concept acc label
          = acc.map fun p => if p.1 = label then (p.1, p.2 + 1) else p := by
        simp [add_concept, hmem]
      obtain ⟨h1, h2⟩ := ih (add_concept acc label) (by rw [hstep, hkeys]; exact hnd)
      refine ⟨h1, fun l => ?_⟩
      rw [h2 l, hstep, sumFreq_bump, countP_key_eq_one acc label hnd hmem,
        List.count_cons]
      by_cases hl : label = l
      · simp [hl]
        omega
      · have : ¬ l = label := fun hc => hl hc.symm
        simp [hl, this]
    · have hstep : add_concept acc label = acc ++ [(label, 1)] := by
        simp only [add_concept]
        rw [if_neg (by simpa using hmem)]
      have hnd' : ((acc ++ [(label, 1)]).map Prod.fst).Nodup := by
        rw [List.map_append]
        simp only [List.map_cons, List.map_nil]
        rw [List.nodup_append]
        refine ⟨hnd, List.nodup_singleton _, ?_⟩
        intro a ha hb
        simp only [List.mem_singleton] at hb
        subst hb
        rw [List.mem_map] at ha
        obtain ⟨p, hp, hpa⟩ := ha
        rw [List.any_eq_true] at hmem
        exact hmem ⟨p, hp, by simp [hpa]⟩
      obtain ⟨h1, h2⟩ := ih (add_concept acc label) (by rw [hstep]; exact hnd')
      refine ⟨h1, fun l => ?_⟩
      rw [h2 l, hstep]
      unfold sumFreq
      rw [List.filter_append, List.map_append, List.sum_append, List.count_cons]
      by_cases hl : label = l
      · simp [hl]
        omega
      · have : ¬ l = label := fun hc => hl hc.symm
        simp [hl, this]

theorem count_flatMap_nodup (cc : List (List String)) (l : String)
    (h : ∀ c ∈ cc, c.Nodup) :
    (cc.flatMap id).count l = (cc.filter fun c => decide (l ∈ c)).length := by
  induction cc with
  | nil => simp
  | cons c rest ih =>
    rw [List.flatMap_cons, List.count_append, List.filter_cons]
    simp only [id_eq]
    have hrest := ih (fun x hx => h x (List.mem_cons_of_mem c hx))
    by_cases hmem : l ∈ c
    · rw [List.count_eq_one_of_mem (h c (List.mem_cons_self c rest)) hmem,
        if_pos (by simpa using hmem), List.length_cons, hrest]
      omega
    · rw [List.count_eq_zero_of_not_mem hmem, if_neg (by simpa using hmem), hrest]
      omega

/-- **C5.** For every ingestion, each concept's persisted frequency is
incremented by exactly the number of chunks of the ingested document
whose (per-chunk deduplicated) concept list mentions its label, and the
counter never decreases; ingesting two documents that each contain the
label `"graph"` in exactly one chunk yields frequency 2. -/
theorem concept_freq_spec (freqs : String → Nat) (chunk_concepts : List (List String))
    (h : ∀ c ∈ chunk_concepts, c.Nodup) :
    (∀ label, ingest_freqs freqs chunk_concepts label
        = freqs label + (chunk_concepts.filter fun c => decide (label ∈ c)).length) ∧
    (∀ label, freqs label ≤ ingest_freqs freqs chunk_concepts label) ∧
    ingest_freqs (ingest_freqs (fun _ => 0) [["graph"]]) [["graph", "neo4j"]] "graph"
        = 2 := by
  have hmain : ∀ label, ingest_freqs freqs chunk_concepts label
      = freqs label + (chunk_concepts.filter fun c => decide (label ∈ c)).length := by
    intro label
    unfold ingest_freqs
    rw [apply_upserts_eq_add]
    have := (unique_concepts_aux (chunk_concepts.flatMap id) [] (by simp)).2 label
    unfold unique_concepts
    rw [this]
    rw [count_flatMap_nodup chunk_concepts label h]
    simp [sumFreq]
  refine ⟨hmain, fun label => by rw [hmain label]; omega, by decide⟩

/-- Witness for C5 at the per-chunk label lists `[["a", "b"], ["a"]]`. -/
theorem concept_freq_spec_witness :
    (∀ c ∈ [["a", "b"], ["a"]], List.Nodup c) ∧
    ((∀ label, ingest_freqs (fun _ => 3) [["a", "b"], ["a"]] label
        = (fun _ => 3) label
          + (([["a", "b"], ["a"]] : List (List String)).filter
              fun c => decide (label ∈ c)).length) ∧
    (∀ label, (fun _ => 3) label ≤ ingest_freqs (fun _ => 3) [["a", "b"], ["a"]] label) ∧
    ingest_freqs (ingest_freqs (fun _ => 0) [["graph"]]) [["graph", "neo4j"]] "graph"
        = 2) :=
  ⟨by decide, concept_freq_spec (fun _ => 3) [["a", "b"], ["a"]] (by decide)⟩

/-! ## Hybrid retrieval: `hybrid_search` (backend/neo4j_store.py,
lines 137-177) and `search_chunks` (backend/retrieval.py, lines 12-27) -/

/-- One hit returned by the vector index or the fulltext index with its
raw score; the two index queries are external collaborators, so their
result lists are inputs of the embedding. -/
structure SearchHit where
  chunk_id : String
  score : ℚ
  deriving Repr, DecidableEq

/-- One entry of the `combined_results` dict of `hybrid_search`.
`normalized_score` is `none` until (and unless) `search_chunks` sets it —
the Python dict simply has no such key before that point. -/
structure CombinedResult where
  chunk_id : String
  vector_score : ℚ
  kw_score : ℚ
  combined_score : ℚ
  normalized_score : Option ℚ
  deriving Repr, DecidableEq

/-- First loop of `hybrid_search`: seed `combined_results` from the vector
hits, in vector rank order (Python dicts preserve insertion order). -/
def combineVector (alpha : ℚ) (vector_results : List SearchHit) : List CombinedResult :=
  vector_results.map fun r => ⟨r.chunk_id, r.score, 0, alpha * r.score, none⟩

/-- Second loop of `hybrid_search`: merge one keyword hit — an existing
entry gets its `kw_score` set and its `combined_score` bumped by
`(1 - alpha) * score`; an unseen chunk id is appended. -/
def applyKeywordHit (alpha : ℚ) (acc : List CombinedResult) (r : SearchHit) :
    List CombinedResult :=
  if acc.any (fun c => c.chunk_id = r.chunk_id) then
    acc.map fun c =>
      if c.chunk_id = r.chunk_id then
        { c with kw_score := r.score,
                 combined_score := c.combined_score + (1 - alpha) * r.score }
      else c
  else acc ++ [⟨r.chunk_id, 0, r.score, (1 - alpha) * r.score, none⟩]

/-- The comparison of `sorted(..., key=lambda x: x['combined_score'],
reverse=True)`. -/
def combinedDesc (a b : CombinedResult) : Bool :=
  decide (b.combined_score ≤ a.combined_score)

/-- `hybrid_search`: merge the vector and keyword hits, sort descending by
combined score (Python's stable sort, modelled by `mergeSort`), truncate
to `k`. -/
def hybrid_search (vector_results keyword_results : List SearchHit) (k : Nat)
    (alpha : ℚ) : List CombinedResult :=
  ((keyword_results.foldl (applyKeywordHit alpha)
      (combineVector alpha vector_results)).mergeSort combinedDesc).take k

/-- Python's `max` over a list; `search_chunks` only calls it on a
non-empty list, so the `[]` branch is unreachable there. -/
def pyMax : List ℚ → ℚ
  | [] => 0
  | [x] => x
  | x :: y :: rest => max x (pyMax (y :: rest))

/-- `RetrievalService.search_chunks` after the store call: when the result
list is non-empty and the maximum combined score is positive, set each
result's `normalized_score` to `combined_score / max_score`; otherwise the
key is never written. -/
def search_chunks (vector_results keyword_results : List SearchHit) (k : Nat)
    (alpha : ℚ) : List CombinedResult :=
  let results := hybrid_search vector_results keyword_results k alpha
  if results.isEmpty then results
  else
    let max_score := pyMax (results.map fun r => r.combined_score)
    if 0 < max_score then
      results.map fun r => { r with normalized_score := some (r.combined_score / max_score) }
    else results

/-- Score contributed by one side of the search for a chunk id, 0 when the
id is missing from that side. -/
def scoreOf (hits : List SearchHit) (cid : String) : ℚ :=
  ((hits.filter fun h => h.chunk_id = cid).map SearchHit.score).sum

theorem scoreOf_cons (r : SearchHit) (hits : List SearchHit) (cid : String) :
    scoreOf (r :: hits) cid
      = (if r.chunk_id = cid then r.score else 0) + scoreOf hits cid := by
  unfold scoreOf
  rw [List.filter_cons]
  by_cases h : r.chunk_id = cid <;> simp [h]

theorem scoreOf_eq_zero (hits : List SearchHit) (cid : String)
    (h : cid ∉ hits.map SearchHit.chunk_id) : scoreOf hits cid = 0 := by
  induction hits with
  | nil => rfl
  | cons r rest ih =>
    rw [scoreOf_cons]
    simp only [List.map_cons, List.mem_cons] at h
    push_neg at h
    rw [if_neg (fun hc => h.1 hc.symm), ih h.2]
    ring

theorem scoreOf_single (hits : List SearchHit)
    (hnd : (hits.map SearchHit.chunk_id).Nodup) :
    ∀ r ∈ hits, scoreOf hits r.chunk_id = r.score := by
  induction hits with
  | nil => simp
  | cons h rest ih =>
    simp only [List.map_cons, List.nodup_cons] at hnd
    intro r hr
    rcases List.mem_cons.mp hr with hrh | hrt
    · subst hrh
      rw [scoreOf_cons, if_pos rfl, scoreOf_eq_zero rest r.chunk_id hnd.1]
      ring
    · have hne : h.chunk_id ≠ r.chunk_id := by
        intro hc
        exact hnd.1 (hc ▸ List.mem_map_of_mem SearchHit.chunk_id hrt)
      rw [scoreOf_cons, if_neg hne, ih hnd.2 r hrt]
      ring

theorem le_pyMax (l : List ℚ) : ∀ x ∈ l, x ≤ pyMax l := by
  induction l with
  | nil => simp
  | cons a t ih =>
    intro x hx
    cases t with
    | nil =>
      simp only [List.mem_singleton] at hx
      simp [pyMax, hx]
    | cons b t' =>
      rcases List.mem_cons.mp hx with h | h
      · subst h; exact le_max_left _ _
      · exact le_trans (ih x h) (le_max_right _ _)

theorem pyMax_le (l : List ℚ) (x : ℚ) (hne : l ≠ []) (h : ∀ y ∈ l, y ≤ x) :
    pyMax l ≤ x := by
  induction l with
  | nil => exact absurd rfl hne
  | cons a t ih =>
    cases t with
    | nil => exact h a (List.mem_singleton_self a)
    | cons b t' =>
      refine max_le (h a (List.mem_cons_self _ _)) ?_
      exact ih (List.cons_ne_nil _ _) (fun y hy => h y (List.mem_cons_of_mem a hy))

theorem pyMax_head_of_sorted (a : ℚ) (t : List ℚ)
    (hs : (a :: t).Sorted (fun x y => x ≥ y)) : pyMax (a :: t) = a := by
  rw [List.sorted_cons] at hs
  refine le_antisymm (pyMax_le _ a (List.cons_ne_nil _ _) ?_) (le_pyMax _ a (List.mem_cons_self _ _))
  intro y hy
  rcases List.mem_cons.mp hy with h | h
  · exact h.le
  · exact hs.1 y h

/-- The effect of the whole keyword-merge loop on one pre-existing entry. -/
def updByKw (alpha : ℚ) (ks : List SearchHit) (c : CombinedResult) : CombinedResult :=
  if c.chunk_id ∈ ks.map SearchHit.chunk_id then
    { c with kw_score := scoreOf ks c.chunk_id,
             combined_score := c.combined_score + (1 - alpha) * scoreOf ks c.chunk_id }
  else c

/-- The fresh entry appended for a keyword-only hit. -/
def kwEntry (alpha : ℚ) (r : SearchHit) : CombinedResult :=
  ⟨r.chunk_id, 0, r.score, (1 - alpha) * r.score, none⟩

theorem updByKw_chunk_id (alpha : ℚ) (ks : List SearchHit) (c : CombinedResult) :
    (updByKw alpha ks c).chunk_id = c.chunk_id := by
  unfold updByKw
  split <;> rfl

theorem filter_congr_mem {α : Type} {l : List α} {p q : α → Bool}
    (h : ∀ a ∈ l, p a = q a) : l.filter p = l.filter q := by
  induction l with
  | nil => rfl
  | cons a t ih =>
    rw [List.filter_cons, List.filter_cons, h a (List.mem_cons_self a t),
      ih (fun x hx => h x (List.mem_cons_of_mem a hx))]

theorem map_congr_mem {α β : Type} {l : List α} {f g : α → β}
    (h : ∀ a ∈ l, f a = g a) : l.map f = l.map g := by
  induction l with
  | nil => rfl
  | cons a t ih =>
    rw [List.map_cons, List.map_cons, h a (List.mem_cons_self a t),
      ih (fun x hx => h x (List.mem_cons_of_mem a hx))]

theorem updByKw_nil (alpha : ℚ) (c : CombinedResult) : updByKw alpha [] c = c := by
  simp [updByKw]

theorem updByKw_cons_ne (alpha : ℚ) (r : SearchHit) (ks' : List SearchHit)
    (c : CombinedResult) (hne : c.chunk_id ≠ r.chunk_id) :
    updByKw alpha (r :: ks') c = updByKw alpha ks' c := by
  unfold updByKw
  by_cases hin : c.chunk_id ∈ ks'.map SearchHit.chunk_id
  · rw [if_pos (by simp [hin]), if_pos hin, scoreOf_cons,
      if_neg (fun h => hne h.symm), zero_add]
  · rw [if_neg (by simp [hin, hne]), if_neg hin]

theorem updByKw_cons_self (alpha : ℚ) (r : SearchHit) (ks' : List SearchHit)
    (hnotin : r.chunk_id ∉ ks'.map SearchHit.chunk_id)
    (c : CombinedResult) (hc : c.chunk_id = r.chunk_id) :
    updByKw alpha (r :: ks') c
      = { c with kw_score := r.score,
                 combined_score := c.combined_score + (1 - alpha) * r.score } := by
  unfold updByKw
  rw [if_pos (by simp [hc]), scoreOf_cons, if_pos hc.symm,
    scoreOf_eq_zero ks' c.chunk_id (by rw [hc]; exact hnotin), add_zero]

theorem updByKw_not_mem (alpha : ℚ) (ks : List SearchHit) (c : CombinedResult)
    (h : c.chunk_id ∉ ks.map SearchHit.chunk_id) : updByKw alpha ks c = c := by
  unfold updByKw
  rw [if_neg h]

/-- Closed form of the keyword-merge loop of `hybrid_search`: every
pre-existing entry is updated according to the keyword score of its id,
and the keyword-only hits are appended in keyword rank order. -/
theorem foldl_applyKeywordHit (alpha : ℚ) :
    ∀ (ks : List SearchHit) (acc : List CombinedResult),
      (ks.map SearchHit.chunk_id).Nodup →
      ks.foldl (applyKeywordHit alpha) acc
        = acc.map (updByKw alpha ks)
          ++ (ks.filter fun r => !(acc.any fun c => c.chunk_id = r.chunk_id)).map
              (kwEntry alpha) := by
  intro ks
  induction ks with
  | nil =>
    intro acc _
    simp only [List.foldl_nil, List.filter_nil, List.map_nil, List.append_nil]
    rw [show acc.map (updByKw alpha []) = acc.map id from
      map_congr_mem (fun c _ => updByKw_nil alpha c), List.map_id]
  | cons r ks' ih =>
    intro acc hnd
    simp only [List.map_cons, List.nodup_cons] at hnd
    rw [List.foldl_cons]
    by_cases hmem : (acc.any fun c => c.chunk_id = r.chunk_id) = true
    · -- the keyword hit matches an existing entry: in-place update
      have hstep : applyKeywordHit alpha acc r
          = acc.map fun c =>
              if c.chunk_id = r.chunk_id then
                { c with kw_score := r.score,
                         combined_score := c.combined_score + (1 - alpha) * r.score }
              else c := by
        simp only [applyKeywordHit]
        rw [if_pos hmem]
      rw [hstep, ih _ hnd.2, List.map_map]
      congr 1
      · refine map_congr_mem fun c _ => ?_
        simp only [Function.comp_apply]
        by_cases hcid : c.chunk_id = r.chunk_id
        · rw [if_pos hcid, updByKw_cons_self alpha r ks' hnd.1 c hcid,
            updByKw_not_mem alpha ks' _ (by simpa [hcid] using hnd.1)]
        · rw [if_neg hcid, updByKw_cons_ne alpha r ks' c hcid]
      · rw [List.filter_cons]
        have hhd : (!(acc.any fun c => c.chunk_id = r.chunk_id)) = false := by
          simp [hmem]
        rw [hhd]
        simp only [Bool.false_eq_true, if_false]
        refine congrArg _ (filter_congr_mem ?_)
        intro r' _
        have hany : ((acc.map fun c =>
            if c.chunk_id = r.chunk_id then
              { c with kw_score := r.score,
                       combined_score := c.combined_score + (1 - alpha) * r.score }
            else c).any fun c => c.chunk_id = r'.chunk_id)
            = (acc.any fun c => c.chunk_id = r'.chunk_id) := by
          rw [List.any_map]
          refine congrArg _ (funext fun c => ?_)
          simp only [Function.comp_apply]
          by_cases hcid : c.chunk_id = r.chunk_id
          · rw [if_pos hcid]
          · rw [if_neg hcid]
        rw [hany]
    · -- fresh chunk id: append a keyword-only entry
      have hfalse : (acc.any fun c => c.chunk_id = r.chunk_id) = false := by
        revert hmem
        cases acc.any fun c => c.chunk_id = r.chunk_id <;> simp
      have hstep : applyKeywordHit alpha acc r = acc ++ [kwEntry alpha r] := by
        simp only [applyKeywordHit, kwEntry]
        rw [if_neg (by simp [hfalse])]
      have hnotacc : ∀ c ∈ acc, c.chunk_id ≠ r.chunk_id := by
        intro c hc hceq
        exact hmem (List.any_eq_true.mpr ⟨c, hc, by simp [hceq]⟩)
      rw [hstep, ih _ hnd.2, List.map_append]
      have hmap : acc.map (updByKw alpha ks') = acc.map (updByKw alpha (r :: ks')) := by
        refine map_congr_mem fun c hc => ?_
        rw [updByKw_cons_ne alpha r ks' c (hnotacc c hc)]
      have hnew : updByKw alpha ks' (kwEntry alpha r) = kwEntry alpha r :=
        updByKw_not_mem alpha ks' _ (by simpa [kwEntry] using hnd.1)
      have hfilter :
          ks'.filter (fun r' => !((acc ++ [kwEntry alpha r]).any fun c => c.chunk_id = r'.chunk_id))
            = ks'.filter (fun r' => !(acc.any fun c => c.chunk_id = r'.chunk_id)) := by
        refine filter_congr_mem ?_
        intro r' hr'
        have hne : r.chunk_id ≠ r'.chunk_id := by
          intro hc
          exact hnd.1 (hc ▸ List.mem_map_of_mem SearchHit.chunk_id hr')
        simp [List.any_append, kwEntry, hne]
      have hhd : (!(acc.any fun c => c.chunk_id = r.chunk_id)) = true := by
        simp [hfalse]
      rw [List.map_singleton, hnew, hmap, hfilter, List.filter_cons, hhd]
      simp only [if_true]
      rw [List.map_cons, List.append_assoc]
      rfl
theorem combined_members (alpha : ℚ) (vres kres : List SearchHit)
    (hv : (vres.map SearchHit.chunk_id).Nodup)
    (hk : (kres.map SearchHit.chunk_id).Nodup) :
    ∀ c ∈ kres.foldl (applyKeywordHit alpha) (combineVector alpha vres),
      c.normalized_score = none ∧
      c.vector_score = scoreOf vres c.chunk_id ∧
      c.kw_score = scoreOf kres c.chunk_id ∧
      c.combined_score
        = alpha * scoreOf vres c.chunk_id + (1 - alpha) * scoreOf kres c.chunk_id := by
  intro c hc
  rw [foldl_applyKeywordHit alpha kres _ hk] at hc
  rcases List.mem_append.mp hc with hc | hc
  · rw [List.mem_map] at hc
    obtain ⟨c₀, hc₀, hcc⟩ := hc
    rw [combineVector, List.mem_map] at hc₀
    obtain ⟨r, hr, hrc⟩ := hc₀
    subst hcc
    subst hrc
    have hvs : scoreOf vres r.chunk_id = r.score := scoreOf_single vres hv r hr
    by_cases hin : r.chunk_id ∈ kres.map SearchHit.chunk_id
    · dsimp only [updByKw]
      rw [if_pos hin]
      exact ⟨rfl, by rw [hvs], rfl, by rw [hvs]⟩
    · dsimp only [updByKw]
      rw [if_neg hin]
      refine ⟨rfl, by rw [hvs], (scoreOf_eq_zero kres r.chunk_id hin).symm, ?_⟩
      rw [hvs, scoreOf_eq_zero kres r.chunk_id hin]
      ring
  · rw [List.mem_map] at hc
    obtain ⟨r, hr, hrc⟩ := hc
    rw [List.mem_filter] at hr
    obtain ⟨hrk, hfilt⟩ := hr
    subst hrc
    have hnotv : r.chunk_id ∉ vres.map SearchHit.chunk_id := by
      intro hmem
      rw [List.mem_map] at hmem
      obtain ⟨v, hv', hveq⟩ := hmem
      have hany : (combineVector alpha vres).any
          (fun c => c.chunk_id = r.chunk_id) = true := by
        refine List.any_eq_true.mpr ⟨⟨v.chunk_id, v.score, 0, alpha * v.score, none⟩, ?_, ?_⟩
        · rw [combineVector, List.mem_map]
          exact ⟨v, hv', rfl⟩
        · simp [hveq]
      rw [hany] at hfilt
      simp at hfilt
    refine ⟨rfl, (scoreOf_eq_zero vres r.chunk_id hnotv).symm, ?_, ?_⟩
    · dsimp only [kwEntry]
      rw [scoreOf_single kres hk r hrk]
    · dsimp only [kwEntry]
      rw [scoreOf_single kres hk r hrk, scoreOf_eq_zero vres r.chunk_id hnotv]
      ring

theorem hybrid_sorted (vres kres : List SearchHit) (k : Nat) (alpha : ℚ) :
    ((hybrid_search vres kres k alpha).map fun c => c.combined_score).Sorted
      (fun a b => a ≥ b) := by
  have htrans : ∀ a b c : CombinedResult, combinedDesc a b = true →
      combinedDesc b c = true → combinedDesc a c = true := by
    intro a b c hab hbc
    simp only [combinedDesc, decide_eq_true_eq] at *
    exact le_trans hbc hab
  have htot : ∀ a b : CombinedResult, (combinedDesc a b || combinedDesc b a) = true := by
    intro a b
    simp only [combinedDesc, Bool.or_eq_true, decide_eq_true_eq]
    exact le_total b.combined_score a.combined_score
  have hs := List.sorted_mergeSort htrans htot
    (kres.foldl (applyKeywordHit alpha) (combineVector alpha vres))
  have htake := List.Pairwise.sublist (List.take_sublist k _) hs
  rw [List.Sorted, List.pairwise_map]
  refine htake.imp ?_
  intro a b h
  simp only [combinedDesc, decide_eq_true_eq] at h
  exact h

theorem hybrid_members (vres kres : List SearchHit) (k : Nat) (alpha : ℚ)
    (hv : (vres.map SearchHit.chunk_id).Nodup)
    (hk : (kres.map SearchHit.chunk_id).Nodup) :
    ∀ c ∈ hybrid_search vres kres k alpha,
      c.normalized_score = none ∧
      c.vector_score = scoreOf vres c.chunk_id ∧
      c.kw_score = scoreOf kres c.chunk_id ∧
      c.combined_score
        = alpha * scoreOf vres c.chunk_id + (1 - alpha) * scoreOf kres c.chunk_id := by
  intro c hc
  refine combined_members alpha vres kres hv hk c ?_
  exact List.mem_mergeSort.mp (List.take_subset _ _ hc)

theorem pyMax_singleton (x : ℚ) : pyMax [x] = x := rfl

/-- Unfolding equation for `search_chunks` in terms of `hybrid_search`. -/
theorem search_chunks_eq (vres kres : List SearchHit) (k : Nat) (alpha : ℚ) :
    search_chunks vres kres k alpha
      = if (hybrid_search vres kres k alpha).isEmpty then hybrid_search vres kres k alpha
        else if 0 < pyMax ((hybrid_search vres kres k alpha).map fun r => r.combined_score)
        then (hybrid_search vres kres k alpha).map fun r =>
          { r with normalized_score := some (r.combined_score
              / pyMax ((hybrid_search vres kres k alpha).map fun r => r.combined_score)) }
        else hybrid_search vres kres k alpha := rfl

/-- **C1 counterexample.** On a query whose every combined score is 0 the
`normalized_score` key is never written (the code only normalizes when
`max_score > 0`), so the normalized score is absent rather than 0 as the
claim states. -/
theorem search_chunks_counterexample :
    (search_chunks [⟨"c1", 0⟩] [] 5 (7/10)).map (fun r => r.normalized_score)
        = [none] ∧
    ((none : Option ℚ) ≠ some 0) := by
  constructor
  · have hcl : ([] : List SearchHit).foldl (applyKeywordHit (7/10))
        (combineVector (7/10) [⟨"c1", 0⟩]) = [⟨"c1", 0, 0, (7/10) * 0, none⟩] := rfl
    have hh : hybrid_search [⟨"c1", 0⟩] [] 5 (7/10)
        = [⟨"c1", 0, 0, (7/10) * 0, none⟩] := by
      unfold hybrid_search
      rw [hcl, List.mergeSort_singleton]
      rfl
    rw [search_chunks_eq, hh]
    norm_num [pyMax_singleton]
  · simp

/-- **C1 (amended).** For every query with result count `k`, fusion weight
`alpha ∈ [0, 1]` and duplicate-free per-side hit lists, hybrid search
returns at most `k` results; each result's combined score equals
`alpha * vectorScore + (1 - alpha) * keywordScore` over the union of the
two hit lists with a missing score treated as 0; results are sorted
descending by combined score; when some combined score is positive every
result's normalized score equals its combined score divided by the
maximum combined score of the result set and the top result's normalized
score is 1; and when every combined score is 0 the normalized score is
left unset (`none`) rather than 0. -/
theorem search_chunks_spec (vres kres : List SearchHit) (k : Nat) (alpha : ℚ)
    (h0 : 0 ≤ alpha) (h1 : alpha ≤ 1)
    (hv : (vres.map SearchHit.chunk_id).Nodup)
    (hk : (kres.map SearchHit.chunk_id).Nodup) :
    (search_chunks vres kres k alpha).length ≤ k ∧
    (∀ r ∈ search_chunks vres kres k alpha,
        r.vector_score = scoreOf vres r.chunk_id ∧
        r.kw_score = scoreOf kres r.chunk_id ∧
        r.combined_score = alpha * scoreOf vres r.chunk_id
            + (1 - alpha) * scoreOf kres r.chunk_id) ∧
    ((search_chunks vres kres k alpha).map fun r => r.combined_score).Sorted
        (fun a b => a ≥ b) ∧
    ((∃ r ∈ search_chunks vres kres k alpha, 0 < r.combined_score) →
      (∀ r ∈ search_chunks vres kres k alpha,
        r.normalized_score = some (r.combined_score
          / pyMax ((search_chunks vres kres k alpha).map fun r => r.combined_score))) ∧
      ((search_chunks vres kres k alpha).head?.map (fun r => r.normalized_score)
          = some (some 1))) ∧
    ((∀ r ∈ search_chunks vres kres k alpha, r.combined_score = 0) →
      ∀ r ∈ search_chunks vres kres k alpha, r.normalized_score = none) := by
  have hmemH := hybrid_members vres kres k alpha hv hk
  have hsorted := hybrid_sorted vres kres k alpha
  have hlenH : (hybrid_search vres kres k alpha).length ≤ k := by
    unfold hybrid_search
    exact List.length_take_le _ _
  have hsc : search_chunks vres kres k alpha
      = if (hybrid_search vres kres k alpha).isEmpty then hybrid_search vres kres k alpha
        else if 0 < pyMax ((hybrid_search vres kres k alpha).map fun r => r.combined_score)
        then (hybrid_search vres kres k alpha).map fun r =>
          { r with normalized_score := some (r.combined_score
              / pyMax ((hybrid_search vres kres k alpha).map fun r => r.combined_score)) }
        else hybrid_search vres kres k alpha := rfl
  by_cases hE : hybrid_search vres kres k alpha = []
  · rw [hsc, hE]
    simp
  · have hEmpty : (hybrid_search vres kres k alpha).isEmpty = false := by
      obtain ⟨c, t, hct⟩ := List.exists_cons_of_ne_nil hE
      rw [hct]
      rfl
    by_cases hm : 0 < pyMax ((hybrid_search vres kres k alpha).map fun r => r.combined_score)
    · -- normalization branch
      have hout : search_chunks vres kres k alpha
          = (hybrid_search vres kres k alpha).map fun r =>
            { r with normalized_score := some (r.combined_score
                / pyMax ((hybrid_search vres kres k alpha).map fun r => r.combined_score)) } := by
        rw [hsc, hEmpty, if_neg Bool.false_ne_true, if_pos hm]
      have hcomb_eq : ((search_chunks vres kres k alpha).map fun r => r.combined_score)
          = (hybrid_search vres kres k alpha).map fun r => r.combined_score := by
        rw [hout, List.map_map]
        exact map_congr_mem fun c _ => rfl
      refine ⟨?_, ?_, ?_, ?_, ?_⟩
      · rw [hout, List.length_map]
        exact hlenH
      · intro r hr
        rw [hout, List.mem_map] at hr
        obtain ⟨r₀, hr₀, hrr⟩ := hr
        obtain ⟨_, p2, p3, p4⟩ := hmemH r₀ hr₀
        subst hrr
        exact ⟨p2, p3, p4⟩
      · rw [hcomb_eq]
        exact hsorted
      · intro _
        constructor
        · intro r hr
          rw [hcomb_eq]
          rw [hout, List.mem_map] at hr
          obtain ⟨r₀, hr₀, hrr⟩ := hr
          subst hrr
          rfl
        · obtain ⟨c, t, hct⟩ := List.exists_cons_of_ne_nil hE
          have hm' : 0 < pyMax (c.combined_score :: t.map fun r => r.combined_score) := by
            rw [hct, List.map_cons] at hm
            exact hm
          have hs' : (c.combined_score :: t.map fun r => r.combined_score).Sorted
              (fun a b => a ≥ b) := by
            rw [hct, List.map_cons] at hsorted
            exact hsorted
          have hhead := pyMax_head_of_sorted _ _ hs'
          have hcpos : 0 < c.combined_score := by
            rw [hhead] at hm'
            exact hm'
          rw [hout, hct, List.map_cons, List.head?_cons]
          show some (some (c.combined_score
            / pyMax ((c :: t).map fun r => r.combined_score))) = some (some 1)
          rw [List.map_cons, hhead, div_self (ne_of_gt hcpos)]
      · intro hz
        exfalso
        obtain ⟨c, t, hct⟩ := List.exists_cons_of_ne_nil hE
        have hallz : ∀ r₀ ∈ hybrid_search vres kres k alpha, r₀.combined_score = 0 := by
          intro r₀ hr₀
          have hmem : ({ r₀ with normalized_score := some (r₀.combined_score
              / pyMax ((hybrid_search vres kres k alpha).map fun r => r.combined_score)) }
                : CombinedResult) ∈ search_chunks vres kres k alpha := by
            rw [hout]
            exact List.mem_map.mpr ⟨r₀, hr₀, rfl⟩
          exact hz ({ r₀ with normalized_score := some (r₀.combined_score
              / pyMax ((hybrid_search vres kres k alpha).map fun r => r.combined_score)) })
            hmem
        have hcz : c.combined_score = 0 :=
          hallz c (by rw [hct]; exact List.mem_cons_self _ _)
        have hm' : 0 < pyMax (c.combined_score :: t.map fun r => r.combined_score) := by
          rw [hct, List.map_cons] at hm
          exact hm
        have hs' : (c.combined_score :: t.map fun r => r.combined_score).Sorted
            (fun a b => a ≥ b) := by
          rw [hct, List.map_cons] at hsorted
          exact hsorted
        rw [pyMax_head_of_sorted _ _ hs', hcz] at hm'
        exact lt_irrefl 0 hm'
    · -- no normalization: the result list is returned untouched
      have hout : search_chunks vres kres k alpha = hybrid_search vres kres k alpha := by
        rw [hsc, hEmpty, if_neg Bool.false_ne_true, if_neg hm]
      refine ⟨by rw [hout]; exact hlenH, ?_, by rw [hout]; exact hsorted, ?_, ?_⟩
      · intro r hr
        rw [hout] at hr
        obtain ⟨_, p2, p3, p4⟩ := hmemH r hr
        exact ⟨p2, p3, p4⟩
      · intro hex
        exfalso
        obtain ⟨r, hr, hrpos⟩ := hex
        rw [hout] at hr
        have : r.combined_score ≤ pyMax ((hybrid_search vres kres k alpha).map
            fun r => r.combined_score) :=
          le_pyMax _ _ (List.mem_map_of_mem _ hr)
        exact hm (lt_of_lt_of_le hrpos this)
      · intro _ r hr
        rw [hout] at hr
        exact (hmemH r hr).1

/-- Witness for C1 at one vector hit `("a", 1)`, one keyword hit
`("b", 1/2)`, `k = 2`, `alpha = 7/10`. -/
theorem search_chunks_spec_witness :
    ((0 : ℚ) ≤ 7/10 ∧ (7/10 : ℚ) ≤ 1 ∧
      (([⟨"a", 1⟩] : List SearchHit).map SearchHit.chunk_id).Nodup ∧
      (([⟨"b", 1/2⟩] : List SearchHit).map SearchHit.chunk_id).Nodup) ∧
    ((search_chunks [⟨"a", 1⟩] [⟨"b", 1/2⟩] 2 (7/10)).length ≤ 2 ∧
    (∀ r ∈ search_chunks [⟨"a", 1⟩] [⟨"b", 1/2⟩] 2 (7/10),
        r.vector_score = scoreOf [⟨"a", 1⟩] r.chunk_id ∧
        r.kw_score = scoreOf [⟨"b", 1/2⟩] r.chunk_id ∧
        r.combined_score = (7/10) * scoreOf [⟨"a", 1⟩] r.chunk_id
            + (1 - 7/10) * scoreOf [⟨"b", 1/2⟩] r.chunk_id) ∧
    ((search_chunks [⟨"a", 1⟩] [⟨"b", 1/2⟩] 2 (7/10)).map fun r => r.combined_score).Sorted
        (fun a b => a ≥ b) ∧
    ((∃ r ∈ search_chunks [⟨"a", 1⟩] [⟨"b", 1/2⟩] 2 (7/10), 0 < r.combined_score) →
      (∀ r ∈ search_chunks [⟨"a", 1⟩] [⟨"b", 1/2⟩] 2 (7/10),
        r.normalized_score = some (r.combined_score
          / pyMax ((search_chunks [⟨"a", 1⟩] [⟨"b", 1/2⟩] 2 (7/10)).map
              fun r => r.combined_score))) ∧
      ((search_chunks [⟨"a", 1⟩] [⟨"b", 1/2⟩] 2 (7/10)).head?.map
          (fun r => r.normalized_score) = some (some 1))) ∧
    ((∀ r ∈ search_chunks [⟨"a", 1⟩] [⟨"b", 1/2⟩] 2 (7/10), r.combined_score = 0) →
      ∀ r ∈ search_chunks [⟨"a", 1⟩] [⟨"b", 1/2⟩] 2 (7/10), r.normalized_score = none)) :=
  ⟨⟨by norm_num, by norm_num, by decide, by decide⟩,
    search_chunks_spec [⟨"a", 1⟩] [⟨"b", 1/2⟩] 2 (7/10)
      (by norm_num) (by norm_num) (by decide) (by decide)⟩

/-! ## Concept extraction: `extract_concepts` (backend/nlp.py, lines 67-102) -/

/-- A noun chunk produced by the external spaCy tagger: surface text, the
whitespace-split word list (`chunk.text.split()`), the per-token lemmas,
and the character position of the span in the source text (carried so the
embedding can speak about source order; the tagger yields spans in source
order). -/
structure NounChunk where
  text : String
  words : List String
  lemmas : List String
  pos : Nat
  deriving Repr, DecidableEq

/-- A named entity produced by the tagger, with its spaCy label kind and
its character position in the source text. -/
structure Entity where
  text : String
  label_kind : String
  pos : Nat
  deriving Repr, DecidableEq

/-- The tagger's parse of one chunk text. -/
structure ParsedDoc where
  noun_chunks : List NounChunk
  ents : List Entity
  deriving Repr, DecidableEq

/-- One `{label, lemma, type}` record returned by `extract_concepts`. -/
structure ConceptEntry where
  label : String
  lemma_form : String
  concept_type : String
  deriving Repr, DecidableEq

/-- Characters removed by Python `str.strip()`: ASCII whitespace plus the
Unicode space characters. -/
def isStripChar (c : Char) : Bool :=
  isSpaceChar c || c = '\t' || c = '\n' || c = '\r' || c = '\x0b' || c = '\x0c'

/-- Python `str.strip()`. -/
def pyStrip (l : List Char) : List Char :=
  ((l.dropWhile isStripChar).reverse.dropWhile isStripChar).reverse

/-- Python `str.lower()` (character-wise case folding). -/
def lowerString (s : String) : String :=
  ⟨s.data.map Char.toLower⟩

/-- `chunk.text.lower().strip()` / `ent.text.lower().strip()`. -/
def normLabel (s : String) : String :=
  ⟨pyStrip (s.data.map Char.toLower)⟩

/-- `' '.join(token.lemma_.lower() for token in chunk)`. -/
def joinSpace (xs : List String) : String :=
  String.intercalate " " xs

/-- The noun-chunk loop body of `extract_concepts`: keep a chunk of at
most `max_tokens` words whose normalized label is unseen and longer than
2 characters; the state is `(concepts, seen_concepts)`. -/
def nc_step (max_tokens : Nat) (st : List ConceptEntry × List String) (ch : NounChunk) :
    List ConceptEntry × List String :=
  if ch.words.length ≤ max_tokens then
    let normalized := normLabel ch.text
    let lemmatized := joinSpace (ch.lemmas.map lowerString)
    if normalized ∉ st.2 ∧ 2 < normalized.length then
      (st.1 ++ [⟨normalized, lemmatized, "noun_chunk"⟩], st.2 ++ [normalized])
    else st
  else st

/-- The named-entity loop body of `extract_concepts`: keep entities of
kind PERSON/ORG/GPE/PRODUCT/EVENT whose normalized label is unseen and
longer than 2 characters. -/
def ent_step (st : List ConceptEntry × List String) (ent : Entity) :
    List ConceptEntry × List String :=
  if ent.label_kind ∈ ["PERSON", "ORG", "GPE", "PRODUCT", "EVENT"] then
    let normalized := normLabel ent.text
    if normalized ∉ st.2 ∧ 2 < normalized.length then
      (st.1 ++ [⟨normalized, normalized, "named_entity"⟩], st.2 ++ [normalized])
    else st
  else st

/-- `extract_concepts`: first all noun chunks, then all named entities,
deduplicating by normalized label across both loops. -/
def extract_concepts (doc : ParsedDoc) (max_tokens : Nat := 5) : List ConceptEntry :=
  (doc.ents.foldl ent_step (doc.noun_chunks.foldl (nc_step max_tokens) ([], []))).1

theorem nc_fold_inv (max_tokens : Nat) :
    ∀ (ncs : List NounChunk) (st : List ConceptEntry × List String),
      st.1.map ConceptEntry.label = st.2 → st.2.Nodup →
      ((ncs.foldl (nc_step max_tokens) st).1.map ConceptEntry.label
          = (ncs.foldl (nc_step max_tokens) st).2 ∧
       (ncs.foldl (nc_step max_tokens) st).2.Nodup ∧
       (ncs.foldl (nc_step max_tokens) st).2.Sublist
          (st.2 ++ ncs.map fun ch => normLabel ch.text)) := by
  intro ncs
  induction ncs with
  | nil =>
    intro st h1 h2
    exact ⟨h1, h2, by simp⟩
  | cons ch rest ih =>
    intro st h1 h2
    rw [List.foldl_cons]
    have hsk : nc_step max_tokens st ch = st ∨
        (normLabel ch.text ∉ st.2 ∧
          nc_step max_tokens st ch
            = (st.1 ++ [⟨normLabel ch.text, joinSpace (ch.lemmas.map lowerString),
                "noun_chunk"⟩], st.2 ++ [normLabel ch.text])) := by
      by_cases hw : ch.words.length ≤ max_tokens
      · by_cases hg : normLabel ch.text ∉ st.2 ∧ 2 < (normLabel ch.text).length
        · exact Or.inr ⟨hg.1, by simp [nc_step, hw, hg]⟩
        · exact Or.inl (by simp [nc_step, hw, hg])
      · exact Or.inl (by simp [nc_step, hw])
    rcases hsk with hsk | ⟨hnotin, hsk⟩
    · rw [hsk]
      obtain ⟨g1, g2, g3⟩ := ih st h1 h2
      refine ⟨g1, g2, g3.trans ?_⟩
      rw [List.map_cons]
      exact List.Sublist.append_left (List.sublist_cons_self _ _) st.2
    · rw [hsk]
      have hp1 : ((st.1 ++ [⟨normLabel ch.text, joinSpace (ch.lemmas.map lowerString),
            "noun_chunk"⟩], st.2 ++ [normLabel ch.text])
              : List ConceptEntry × List String).1.map ConceptEntry.label
          = (st.1 ++ [⟨normLabel ch.text, joinSpace (ch.lemmas.map lowerString),
            "noun_chunk"⟩], st.2 ++ [normLabel ch.text]).2 := by
        dsimp only
        rw [List.map_append, h1]
        rfl
      have hp2 : ((st.1 ++ [⟨normLabel ch.text, joinSpace (ch.lemmas.map lowerString),
            "noun_chunk"⟩], st.2 ++ [normLabel ch.text])
              : List ConceptEntry × List String).2.Nodup := by
        dsimp only
        rw [List.nodup_append]
        exact ⟨h2, List.nodup_singleton _,
          fun a ha hb => hnotin (by rwa [List.mem_singleton.mp hb] at ha)⟩
      obtain ⟨g1, g2, g3⟩ := ih _ hp1 hp2
      refine ⟨g1, g2, ?_⟩
      rw [List.map_cons]
      rwa [List.append_assoc, List.singleton_append] at g3

theorem ent_fold_inv :
    ∀ (es : List Entity) (st : List ConceptEntry × List String),
      st.1.map ConceptEntry.label = st.2 → st.2.Nodup →
      ((es.foldl ent_step st).1.map ConceptEntry.label = (es.foldl ent_step st).2 ∧
       (es.foldl ent_step st).2.Nodup ∧
       (es.foldl ent_step st).2.Sublist (st.2 ++ es.map fun e => normLabel e.text)) := by
  intro es
  induction es with
  | nil =>
    intro st h1 h2
    exact ⟨h1, h2, by simp⟩
  | cons e rest ih =>
    intro st h1 h2
    rw [List.foldl_cons]
    have hsk : ent_step st e = st ∨
        (normLabel e.text ∉ st.2 ∧
          ent_step st e
            = (st.1 ++ [⟨normLabel e.text, normLabel e.text, "named_entity"⟩],
               st.2 ++ [normLabel e.text])) := by
      by_cases hw : e.label_kind ∈ ["PERSON", "ORG", "GPE", "PRODUCT", "EVENT"]
      · by_cases hg : normLabel e.text ∉ st.2 ∧ 2 < (normLabel e.text).length
        · exact Or.inr ⟨hg.1, by simp [ent_step, hw, hg]⟩
        · exact Or.inl (by simp [ent_step, hw, hg])
      · exact Or.inl (by simp [ent_step, hw])
    rcases hsk with hsk | ⟨hnotin, hsk⟩
    · rw [hsk]
      obtain ⟨g1, g2, g3⟩ := ih st h1 h2
      refine ⟨g1, g2, g3.trans ?_⟩
      rw [List.map_cons]
      exact List.Sublist.append_left (List.sublist_cons_self _ _) st.2
    · rw [hsk]
      have hp1 : ((st.1 ++ [⟨normLabel e.text, normLabel e.text, "named_entity"⟩],
            st.2 ++ [normLabel e.text])
              : List ConceptEntry × List String).1.map ConceptEntry.label
          = (st.1 ++ [⟨normLabel e.text, normLabel e.text, "named_entity"⟩],
            st.2 ++ [normLabel e.text]).2 := by
        dsimp only
        rw [List.map_append, h1]
        rfl
      have hp2 : ((st.1 ++ [⟨normLabel e.text, normLabel e.text, "named_entity"⟩],
            st.2 ++ [normLabel e.text])
              : List ConceptEntry × List String).2.Nodup := by
        dsimp only
        rw [List.nodup_append]
        exact ⟨h2, List.nodup_singleton _,
          fun a ha hb => hnotin (by rwa [List.mem_singleton.mp hb] at ha)⟩
      obtain ⟨g1, g2, g3⟩ := ih _ hp1 hp2
      refine ⟨g1, g2, ?_⟩
      rw [List.map_cons]
      rwa [List.append_assoc, List.singleton_append] at g3

/-- **C8 counterexample.** A chunk whose parse has a named entity at
source position 0 (`"Acme Corp"`, an ORG) and a noun chunk at source
position 10 (`"The quarterly report"`): the extractor emits the noun
chunk's concept first even though the entity occurs earlier in the source
text, so the output is not in source-occurrence order. -/
theorem extract_concepts_counterexample :
    (extract_concepts
        ⟨[⟨"The quarterly report", ["The", "quarterly", "report"],
            ["the", "quarterly", "report"], 10⟩],
         [⟨"Acme Corp", "ORG", 0⟩]⟩ 5).map ConceptEntry.label
      = ["the quarterly report", "acme corp"] ∧
    (0 : Nat) < 10 := by
  constructor
  · decide
  · decide

/-- **C8 (amended).** For every chunk parse, the concept extractor returns
an ordered list in which second and later occurrences of the same
normalized label are dropped (the returned labels are duplicate-free),
and the surviving concepts appear with all noun chunks first in their
source order, followed by named entities in their source order (a
subsequence of the concatenated normalized label sequences) — not in
global source-text order. -/
theorem extract_concepts_spec (doc : ParsedDoc) (max_tokens : Nat) :
    ((extract_concepts doc max_tokens).map ConceptEntry.label).Nodup ∧
    ((extract_concepts doc max_tokens).map ConceptEntry.label).Sublist
      (doc.noun_chunks.map (fun ch => normLabel ch.text)
        ++ doc.ents.map fun e => normLabel e.text) := by
  obtain ⟨h1, h2, h3⟩ := nc_fold_inv max_tokens doc.noun_chunks ([], []) rfl List.nodup_nil
  obtain ⟨g1, g2, g3⟩ := ent_fold_inv doc.ents _ h1 h2
  rw [List.nil_append] at h3
  constructor
  · rw [extract_concepts, g1]
    exact g2
  · rw [extract_concepts, g1]
    exact g3.trans (h3.append (List.Sublist.refl _))

/-! ## Answer composition: `QAService` (backend/qa.py, lines 21-147) -/

/-- A retrieved chunk as consumed by the answer composer (`doc_id`,
`text`, and the scores set by retrieval; `normalized_score` may be
absent). -/
structure QAChunk where
  text : String
  doc_id : String
  combined_score : ℚ
  normalized_score : Option ℚ
  deriving Repr, DecidableEq

/-- One entry of the `sources` list of an answer. -/
structure SourceEntry where
  docId : String
  snippet : String
  url : Option String
  score : ℚ
  deriving Repr, DecidableEq

/-- The `{answer, sources}` dict returned by the two answer strategies. -/
structure AnswerCore where
  answer : String
  sources : List SourceEntry
  deriving Repr, DecidableEq

/-- The full response of `answer_question`. -/
structure AnswerData where
  answer : String
  sources : List SourceEntry
  nodes_used : List String
  deriving Repr, DecidableEq

/-- `chunk.get('normalized_score', chunk.get('combined_score', 0))`
(`combined_score` is always present on retrieval results). -/
def getScore (c : QAChunk) : ℚ :=
  c.normalized_score.getD c.combined_score

/-- Sentence delimiters of `re.split(r'[.!?]+', text)`. -/
def isSentEnd (c : Char) : Bool :=
  c = '.' || c = '!' || c = '?'

/-- `re.split(r'[.!?]+', text)`: a maximal run of delimiters is a single
boundary; leading/trailing boundaries produce empty segments. -/
def splitSent : List Char → List (List Char)
  | [] => [[]]
  | c :: rest =>
    match splitSent rest, rest with
    | s :: ss, d :: _ =>
      if isSentEnd c then (if isSentEnd d then s :: ss else [] :: s :: ss)
      else (c :: s) :: ss
    | s :: ss, [] => if isSentEnd c then [] :: s :: ss else (c :: s) :: ss
    | [], _ => []

/-- `text[:200] + '...'` when the text exceeds 200 characters. -/
def truncSnippet (t : String) : String :=
  if 200 < t.length then String.mk (t.data.take 200) ++ "..." else t

/-- One surviving sentence of `_extractive_answer` with the data the loop
keeps alongside it. -/
structure ScoredSentence where
  text : List Char
  score : ℚ
  docId : String
  chunk_text : String
  deriving Repr, DecidableEq

/-- The sentence-collection loop of `_extractive_answer`: split each of
the top-5 chunks on sentence boundaries, strip, keep sentences longer
than 20 characters. -/
def sentence_candidates (chunks : List QAChunk) : List ScoredSentence :=
  (chunks.take 5).flatMap fun c =>
    ((splitSent c.text.data).map pyStrip).filterMap fun s =>
      if 20 < s.length then some ⟨s, getScore c, c.doc_id, c.text⟩ else none

/-- The comparison of `all_sentences.sort(key=score, reverse=True)`. -/
def scoreDesc (a b : ScoredSentence) : Bool :=
  decide (b.score ≤ a.score)

/-- `answer.endswith('.')`. -/
def endsWithDot (l : List Char) : Bool :=
  l.getLast? = some '.'

/-- `QAService._extractive_answer` (the `question` argument is accepted
but unused by the Python code as well). -/
def extractive_answer (question : String) (chunks : List QAChunk) : AnswerCore :=
  let top_sentences := ((sentence_candidates chunks).mergeSort scoreDesc).take 4
  let answer := List.intercalate ('.' :: ' ' :: [])
    (top_sentences.map fun s => s.text)
  let answer := if answer ≠ [] ∧ ¬ endsWithDot answer then answer ++ ['.'] else answer
  let sources := (top_sentences.foldl (fun acc s =>
      if s.docId ∈ acc.2 then acc
      else (acc.1 ++ [⟨s.docId, truncSnippet s.chunk_text, none, s.score⟩],
            acc.2 ++ [s.docId]))
    (([], []) : List SourceEntry × List String)).1
  { answer := if answer = [] then
      "I couldn\u0027t generate a clear answer from the available information."
    else String.mk answer,
    sources := sources }

/-- `QAService._llm_answer`.  Building the prompt (snippet selection and
the 2000-character context truncation) only shapes the input of the
external completion call and leaves no trace in the return value; the
external call's outcome enters as `llmResponse`.  On any failure the
method returns `_extractive_answer` unchanged; on success it strips the
model's text and builds the per-chunk source list. -/
def llm_answer (llmResponse : Except Unit String) (question : String)
    (chunks : List QAChunk) : AnswerCore :=
  match llmResponse with
  | .error _ => extractive_answer question chunks
  | .ok content =>
    { answer := String.mk (pyStrip content.data),
      sources := (chunks.take 5).map fun c =>
        ⟨c.doc_id, truncSnippet c.text, none, getScore c⟩ }

/-- `QAService.answer_question`: empty retrieval short-circuits; otherwise
the configured strategy runs and the top-10 concept labels from the
expanded context are attached as `nodes_used`. -/
def answer_question (use_llm : Bool) (llmResponse : Except Unit String)
    (question : String) (chunk_results : List QAChunk)
    (concept_labels : List String) : AnswerData :=
  if chunk_results.isEmpty then
    { answer := "I couldn\u0027t find any relevant information to answer your question.",
      sources := [], nodes_used := [] }
  else
    let answer_data := if use_llm then llm_answer llmResponse question chunk_results
      else extractive_answer question chunk_results
    { answer := answer_data.answer, sources := answer_data.sources,
      nodes_used := concept_labels.take 10 }

/-- **C6.** For every question answered with a non-empty retrieval result,
if the generative path is selected and the external model fails, the
composer returns exactly what the extractive path would return (same
answer text, same sources, same nodes used), so the failure never reaches
the caller. -/
theorem llm_failure_falls_back (question : String) (chunk_results : List QAChunk)
    (concept_labels : List String) (e : Unit) (resp : Except Unit String)
    (h : chunk_results ≠ []) :
    answer_question true (Except.error e) question chunk_results concept_labels
        = answer_question false resp question chunk_results concept_labels ∧
    answer_question true (Except.error e) question chunk_results concept_labels
        = { answer := (extractive_answer question chunk_results).answer,
            sources := (extractive_answer question chunk_results).sources,
            nodes_used := concept_labels.take 10 } := by
  have hne : chunk_results.isEmpty = false := by
    cases chunk_results with
    | nil => exact absurd rfl h
    | cons a t => rfl
  constructor
  · simp [answer_question, llm_answer, hne]
  · simp [answer_question, llm_answer, hne]

/-- Witness for C6 at one retrieved chunk and a failing completion call. -/
theorem llm_failure_falls_back_witness :
    (([⟨"some text", "d1", 1, some 1⟩] : List QAChunk) ≠ []) ∧
    (answer_question true (Except.error ()) "q" [⟨"some text", "d1", 1, some 1⟩] ["k"]
        = answer_question false (Except.ok "fine") "q" [⟨"some text", "d1", 1, some 1⟩] ["k"] ∧
    answer_question true (Except.error ()) "q" [⟨"some text", "d1", 1, some 1⟩] ["k"]
        = { answer := (extractive_answer "q" [⟨"some text", "d1", 1, some 1⟩]).answer,
            sources := (extractive_answer "q" [⟨"some text", "d1", 1, some 1⟩]).sources,
            nodes_used := (["k"] : List String).take 10 }) :=
  ⟨by decide,
    llm_failure_falls_back "q" [⟨"some text", "d1", 1, some 1⟩] ["k"] ()
      (Except.ok "fine") (by decide)⟩

/-! ## Ingestion: `IngestionService.ingest_file` (backend/ingest.py,
lines 63-99) and `_process_content` (lines 162-227) -/

/-- A persisted document node. -/
structure DocRecord where
  id : String
  doc_type : String
  name : String
  url : Option String
  bytes : Nat
  deriving Repr, DecidableEq

/-- A persisted chunk node (the embedding vector comes from the external
model and plays no role in the persisted-state claims). -/
structure ChunkRecord where
  id : String
  text : List Char
  start : Nat
  stop : Nat
  docId : String
  deriving Repr, DecidableEq

/-- The persisted graph state touched by ingestion: documents, chunks,
Concept nodes (keyed by label), MENTIONS edges, CO_OCCURS edges, concept
frequency counters, co-occurrence weights. -/
structure GraphState where
  docs : List DocRecord
  chunks : List ChunkRecord
  concepts : List String
  mentions : List (String × String)
  cooccur : List (Sym2 String)
  freqs : String → Nat
  weights : Sym2 String → ℚ

/-- The true stored byte total, `SUM(d.bytes)` over the Document nodes. -/
def total_bytes (st : GraphState) : Nat :=
  (st.docs.map fun d => d.bytes).sum

/-- The `total_bytes` figure actually reported by `Neo4jStore.stats`
(neo4j_store.py, lines 259-273).  The Cypher chains four plain `MATCH`
clauses; the first (`MATCH (d:Document)`) aggregates to one row even when
there are no documents, but each later `MATCH` kills every row when its
pattern has no match, so with zero Chunk, zero Concept, or zero CO_OCCURS
rows `result.single()` is `None` and the Python fallback dict reports 0
for every statistic — the reported byte total then under-counts the true
`SUM(d.bytes)`. -/
def stats_total_bytes (st : GraphState) : Nat :=
  if st.chunks.isEmpty || st.concepts.isEmpty || st.cooccur.isEmpty then 0
  else total_bytes st

/-- `upsert_document`: MERGE on the document id, then SET all fields. -/
def upsert_document (st : GraphState) (d : DocRecord) : GraphState :=
  if st.docs.any (fun e => e.id = d.id) then
    { st with docs := st.docs.map fun e => if e.id = d.id then d else e }
  else { st with docs := st.docs ++ [d] }

/-- `upsert_chunk_with_embedding`: MERGE on the chunk id, then SET. -/
def upsert_chunk (st : GraphState) (c : ChunkRecord) : GraphState :=
  if st.chunks.any (fun e => e.id = c.id) then
    { st with chunks := st.chunks.map fun e => if e.id = c.id then c else e }
  else { st with chunks := st.chunks ++ [c] }

/-- `link_mentions`: MERGE of one (chunk, concept) edge. -/
def link_mentions (st : GraphState) (chunk_id concept_label : String) : GraphState :=
  if (chunk_id, concept_label) ∈ st.mentions then st
  else { st with mentions := st.mentions ++ [(chunk_id, concept_label)] }

/-- `upsert_concept` on the store: MERGE the Concept node on its label and
add `$freq` to `COALESCE(k.freq, 0)`. -/
def upsert_concept_state (st : GraphState) (label : String) (freq : Nat) : GraphState :=
  { st with
    concepts := if label ∈ st.concepts then st.concepts else st.concepts ++ [label],
    freqs := upsert_concept_freq st.freqs label freq }

/-- `bump_cooccurrence` on the store: both Concept nodes must exist
(`MATCH` twice), self-pairs are dropped (`WHERE k1 <> k2`), the undirected
edge is MERGEd and its weight incremented. -/
def bump_cooccurrence_state (st : GraphState) (label1 label2 : String)
    (weight : ℚ) : GraphState :=
  if label1 ∈ st.concepts ∧ label2 ∈ st.concepts ∧ label1 ≠ label2 then
    { st with
      cooccur := if s(label1, label2) ∈ st.cooccur then st.cooccur
        else st.cooccur ++ [s(label1, label2)],
      weights := fun e => if e = s(label1, label2) then st.weights e + weight
        else st.weights e }
  else st

/-- `IngestionService._process_content`: chunk the text, store the chunks,
apply the aggregated concept-frequency upserts, link mentions, apply the
co-occurrence writes; returns the new state with `chunks_created` and
`concepts_extracted`.  Per-chunk concept extraction (the tagger composed
with `extract_concepts`, yielding the per-chunk label list) enters as the
function `extract`. -/
def process_content (extract : List Char → List String) (st : GraphState)
    (text : List Char) (doc_id : String) : GraphState × Nat × Nat :=
  let chunks := chunk_text text
  let st1 := chunks.foldl (fun s c =>
    upsert_chunk s ⟨doc_id ++ "_" ++ toString c.id, c.text, c.start, c.stop, doc_id⟩) st
  let chunk_concepts := chunks.map fun c => extract c.text
  let st2 := (unique_concepts (chunk_concepts.flatMap id)).foldl
    (fun s p => upsert_concept_state s p.1 p.2) st1
  let st3 := (chunks.zip chunk_concepts).foldl (fun s p =>
    p.2.foldl (fun s' label =>
      link_mentions s' (doc_id ++ "_" ++ toString p.1.id) label) s) st2
  let st4 := (cooccurrence_writes chunk_concepts).foldl
    (fun s t => bump_cooccurrence_state s t.1 t.2.1 t.2.2) st3
  (st4, chunks.length, (unique_concepts (chunk_concepts.flatMap id)).length)

/-- Validation failures of `ingest_file`. -/
inductive IngestError
  | BudgetExceeded
  | EncodingError
  deriving Repr, DecidableEq

/-- An uploaded file: its byte size and its UTF-8 decoding, `none` when
the bytes are not valid UTF-8. -/
structure FileContent where
  size : Nat
  decoded : Option (List Char)

/-- `check_budget`: read `stats().get('total_bytes', 0)` — the
under-counting figure of `stats_total_bytes`, not the true byte sum — and
compare `current + additional <= ceiling`. -/
def check_budget (budget_bytes : Nat) (st : GraphState) (additional_bytes : Nat) : Bool :=
  decide (stats_total_bytes st + additional_bytes ≤ budget_bytes)

/-- Deterministic document id of a file upload (`md5("file:" + filename)`
in the source); the external hash is modelled by the tagged name itself,
which is equally deterministic and injective. -/
def file_doc_id (filename : String) : String :=
  "file:" ++ filename

/-- `ingest_file`: budget check, then UTF-8 decode, then the document
upsert and content processing.  Both validation failures return before
any store write, so the state component of the result is the input state
on those paths. -/
def ingest_file (budget_bytes : Nat) (extract : List Char → List String)
    (st : GraphState) (content : FileContent) (filename : String) :
    GraphState × Except IngestError (Nat × Nat) :=
  if ¬ check_budget budget_bytes st content.size then
    (st, .error .BudgetExceeded)
  else
    match content.decoded with
    | none => (st, .error .EncodingError)
    | some text =>
      let st1 := upsert_document st
        ⟨file_doc_id filename, "file", filename, none, content.size⟩
      let r := process_content extract st1 text (file_doc_id filename)
      (r.1, .ok r.2)

/-- **C7 (code bug).** The claim requires ingestion to fail with
`BudgetExceeded` whenever the stored byte total plus the upload size
exceeds the ceiling.  The code reads the total through `Neo4jStore.stats`,
whose chained `MATCH` query reports `total_bytes = 0` whenever the store
has no Chunk, no Concept, or no CO_OCCURS row, even with documents
present — so in such states an over-budget upload is ingested instead of
rejected.  Conjuncts: on a store holding one 100-byte document and
nothing else, the true total is 100 but the reported total is 0; a
10-byte upload against a 50-byte ceiling satisfies the claim's
over-budget condition yet is ingested (`ok`, 1 chunk, 0 concepts); and in
a state where the statistics row survives (a chunk, a concept and a
co-occurrence edge exist) the same over-budget upload does fail with
`BudgetExceeded` and leaves the state unchanged, as the claim demands. -/
theorem ingest_file_budget_bug :
    total_bytes ⟨[⟨"d0", "file", "doc", none, 100⟩], [], [], [], [],
        fun _ => 0, fun _ => 0⟩ = 100 ∧
    stats_total_bytes ⟨[⟨"d0", "file", "doc", none, 100⟩], [], [], [], [],
        fun _ => 0, fun _ => 0⟩ = 0 ∧
    50 < total_bytes ⟨[⟨"d0", "file", "doc", none, 100⟩], [], [], [], [],
        fun _ => 0, fun _ => 0⟩ + 10 ∧
    (ingest_file 50 (fun _ => []) ⟨[⟨"d0", "file", "doc", none, 100⟩], [], [], [], [],
        fun _ => 0, fun _ => 0⟩ ⟨10, some "hello".data⟩ "f").2
      = Except.ok (1, 0) ∧
    ingest_file 50 (fun _ => [])
        ⟨[⟨"d0", "file", "doc", none, 100⟩], [⟨"c0", [], 0, 0, "d0"⟩], ["k1"], [],
          [s("k1", "k2")], fun _ => 0, fun _ => 0⟩ ⟨10, none⟩ "f"
      = (⟨[⟨"d0", "file", "doc", none, 100⟩], [⟨"c0", [], 0, 0, "d0"⟩], ["k1"], [],
          [s("k1", "k2")], fun _ => 0, fun _ => 0⟩,
         Except.error IngestError.BudgetExceeded) :=
  ⟨rfl, rfl, by decide, rfl, rfl⟩

end Spec2Proof
